import Mathlib

/-!
# Verification of the flipdashboard listing store, matcher and valuation engine

Shallow embedding of `scrape_marktplaats.py` and `valuation.py`
(Juganof/flipdashboard).  Python floats are idealised as exact rationals:
prices and statistics use `Rat`; the fuzzy-match scores use `Frac`, an
unreduced fraction of naturals carrying the same exact rational order
(this keeps score comparisons kernel-computable).  Text is processed on
`List Char` so that lower-casing and substring search stay structural.
-/

namespace Flip

/-! ## Listing store (`scrape_marktplaats.py`, `_init_db` / `_update_database`)

The `listings` table of `data.db` has columns
`id, title, price, status, last_seen, final_price, url`;  `_update_database`
only ever writes the status strings `'available'` and `'sold'`
(the spec calls the `'available'` state `active`).  A table is modelled as a
list of rows; SQL's `NULL` is `Option.none`. -/

inductive Status where
  | available : Status
  | sold : Status
deriving DecidableEq, Repr

structure DBRecord where
  id : String
  title : Option String
  price : Option Rat
  status : Status
  last_seen : String
  final_price : Option Rat
  url : Option String
deriving DecidableEq, Repr

/-- A raw product dictionary as consumed by `_update_database`
(only the keys the function reads). `price` is the raw display string
(for instance `"€120.00"`); `id` is a string, so Python's `str(product["id"])`
is the identity on it. -/
structure ProductIn where
  id : String
  title : Option String
  price : Option String
  url : Option String
deriving DecidableEq, Repr

/-- Helper for `float(...)`: digits of a decimal string. -/
def parseDigits : List Char → Option Nat
  | [] => none
  | cs =>
    if cs.all Char.isDigit then
      some (cs.foldl (fun n c => 10 * n + (c.toNat - 48)) 0)
    else none

/-- Models Python's `float(s)` restricted to the plain decimal forms
`DIGITS` and `DIGITS.DIGITS` that price strings take (with IEEE floats
idealised to exact rationals); anything else models a `ValueError`,
returned as `none`. -/
def pyFloat (s : List Char) : Option Rat :=
  match s.span (· ≠ '.') with
  | (intPart, []) => (parseDigits intPart).map (fun n => (n : Rat))
  | (intPart, _dot :: frac) =>
    match parseDigits intPart, parseDigits frac with
    | some n, some f => some ((n : Rat) + (f : Rat) / ((10 : Rat) ^ frac.length))
    | _, _ => none

/-- `price = float(product["price"].replace("€", ""))` guarded by the
truthiness test `if product.get("price")` and the `try`/`except ValueError`
of `_update_database` (lines 70-75): a missing or empty string, or a string
that does not parse, yields `NULL`. -/
def parsePriceField (price : Option String) : Option Rat :=
  match price with
  | none => none
  | some s => if s = "" then none else pyFloat (s.toList.filter (· ≠ '€'))

/-- One `INSERT ... ON CONFLICT(id) DO UPDATE` of `_update_database`
(lines 76-94): insert a fresh `'available'` row, or overwrite
`title`, `price`, `status`, `last_seen`, `url` of the existing row with the
same `id` (`final_price` is left untouched). -/
def upsertOne (now : String) (store : List DBRecord) (p : ProductIn) : List DBRecord :=
  let priceVal := parsePriceField p.price
  if store.any (fun r => r.id = p.id) then
    store.map (fun r =>
      if r.id = p.id then
        { r with title := p.title, price := priceVal, status := Status.available,
                 last_seen := now, url := p.url }
      else r)
  else
    store ++ [{ id := p.id, title := p.title, price := priceVal,
                status := Status.available, last_seen := now,
                final_price := none, url := p.url }]

/-- The transition applied by
`UPDATE listings SET status='sold', final_price=price, price=NULL`:
both right-hand sides read the pre-update row, so `final_price` receives the
old `price` (which may itself be `NULL`). -/
def soldify (r : DBRecord) : DBRecord :=
  { r with status := Status.sold, final_price := r.price, price := none }

/-- Lines 96-104 of `_update_database`: the ids of the `'available'` rows are
fetched, the ones absent from `seen_ids` form `missing`, and each row of
`missing` is transitioned by `soldify`.  The computed `missing` set — the
spec's "set of ids transitioned", returned by its `mark_missing_as_sold`
contract — is returned alongside the new table. -/
def mark_missing_as_sold (store : List DBRecord) (seen_ids : List String) :
    List DBRecord × List String :=
  let existing_ids := (store.filter (fun r => decide (r.status = Status.available))).map
    (fun r => r.id)
  let missing := existing_ids.filter (fun i => decide (i ∉ seen_ids))
  (store.map (fun r => if r.id ∈ missing then soldify r else r), missing)

/-- `_update_database(products)` (lines 59-107): collect `seen_ids` from the
batch, upsert every product in order, then mark the missing rows sold.
`now` stands for `datetime.utcnow().isoformat()`. -/
def update_database (now : String) (store : List DBRecord) (products : List ProductIn) :
    List DBRecord × List String :=
  let seen_ids := products.map (fun p => p.id)
  let store1 := products.foldl (upsertOne now) store
  mark_missing_as_sold store1 seen_ids

/-! ## Product matcher (`valuation.py`, `match_product_key`)

The score of a pattern against a title is `rapidfuzz.fuzz.partial_ratio`,
an external library call.  Modelled from the spec: a partial similarity on a
0-100 scale — the best normalised-indel similarity (`ratio`, i.e.
`200·lcs(a,b)/(|a|+|b|)`) of the shorter string against each window of the
longer string whose length is that of the shorter.  Scores are exact
rationals kept as unreduced fractions (`Frac`) so that the float
comparisons of the source become cross-multiplied `Nat` comparisons. -/

/-- An unreduced non-negative fraction.  Every score built below has a
positive denominator. -/
structure Frac where
  num : Nat
  den : Nat
deriving DecidableEq, Repr

/-- Exact rational strict order on fractions (cross multiplication). -/
def Frac.lt (x y : Frac) : Prop := x.num * y.den < y.num * x.den

instance Frac.decLt (x y : Frac) : Decidable (Frac.lt x y) := by
  unfold Frac.lt; infer_instance

/-- Exact rational non-strict order. -/
def Frac.le (x y : Frac) : Prop := x.num * y.den ≤ y.num * x.den

instance Frac.decLe (x y : Frac) : Decidable (Frac.le x y) := by
  unfold Frac.le; infer_instance

/-- Exact rational equality of fractions. -/
def Frac.equiv (x y : Frac) : Prop := x.num * y.den = y.num * x.den

instance Frac.decEquiv (x y : Frac) : Decidable (Frac.equiv x y) := by
  unfold Frac.equiv; infer_instance

/-- One row-update of the standard longest-common-subsequence dynamic
programme: `prev` is the previous row (without its leading cell), `diag` and
`left` the values diagonally above and to the left of the cell being filled. -/
def lcsRowAux (c : Char) : List Char → List Nat → Nat → Nat → List Nat
  | bj :: bs, pj :: ps, diag, left =>
    let q := if c = bj then diag + 1 else max left pj
    q :: lcsRowAux c bs ps pj q
  | _, _, _, _ => []

/-- Length of a longest common subsequence, by dynamic programming (kept
structurally recursive so that concrete scores evaluate in the kernel). -/
def lcs (a b : List Char) : Nat :=
  let init : List Nat := List.replicate (b.length + 1) 0
  let final := a.foldl
    (fun row c =>
      match row with
      | p0 :: ps => 0 :: lcsRowAux c b ps p0 0
      | [] => []) init
  final.getLastD 0

/-- `fuzz.ratio`: normalised indel similarity on a 0-100 scale,
`100·(1 - dist_indel/(|a|+|b|)) = 200·lcs(a,b)/(|a|+|b|)`; two empty
strings score 100. -/
def fuzzRatio (a b : List Char) : Frac :=
  if a.length + b.length = 0 then ⟨100, 1⟩
  else ⟨200 * lcs a b, a.length + b.length⟩

/-- All windows of length `n` of `l` (for `n ≤ l.length`). -/
def windowsOf (n : Nat) (l : List Char) : List (List Char) :=
  (List.range (l.length - n + 1)).map (fun i => (l.drop i).take n)

/-- Binary maximum in the exact rational order of `Frac` (first argument
kept on ties), the running-best step shared by the score folds below. -/
def fracMax (m s : Frac) : Frac := if Frac.lt m s then s else m

/-- Modelled from the spec: `fuzz.partial_ratio` — the best `fuzz.ratio` of
the shorter string against the windows of the longer string of the
shorter string's length. -/
def fuzzPartial (a b : List Char) : Frac :=
  let p := if a.length ≤ b.length then (a, b) else (b, a)
  ((windowsOf p.1.length p.2).map (fuzzRatio p.1)).foldl fracMax ⟨0, 1⟩

/-- Lower-casing of a Python string (`str.lower`), on the character list. -/
def lowerStr (s : String) : List Char := s.toList.map Char.toLower

/-- `PRODUCT_RULES`: product key → match patterns. -/
def PRODUCT_RULES : List (String × List String) :=
  [("delonghi_magnifica_s", ["delonghi magnifica s"])]

/-- `THRESHOLD = 80`. -/
def THRESHOLD : Frac := ⟨80, 1⟩

/-- The accumulator step of `match_product_key`'s loop:
`if score > best_score: best_key, best_score = key, score`. -/
def matchStep (acc : Option String × Frac) (ks : String × Frac) : Option String × Frac :=
  if Frac.lt acc.2 ks.2 then (some ks.1, ks.2) else acc

/-- `match_product_key` generalised over the rule set (the source reads the
module-level `PRODUCT_RULES`): lower-case the title, scan every pattern of
every key keeping the strictly best score, return the best key if the best
score reaches the threshold. -/
def match_product_key_with (rules : List (String × List String)) (title : String) :
    Option String :=
  let t := lowerStr title
  let best := rules.foldl
    (fun acc kp => kp.2.foldl
      (fun acc2 pat => matchStep acc2 (kp.1, fuzzPartial (lowerStr pat) t)) acc)
    ((none : Option String), (⟨0, 1⟩ : Frac))
  if Frac.le THRESHOLD best.2 then best.1 else none

/-- `match_product_key(title)` as in the source, over `PRODUCT_RULES`. -/
def match_product_key (title : String) : Option String :=
  match_product_key_with PRODUCT_RULES title

/-! ## Statistics (`valuation.py`, `winsorize` / `percentile` / `median`) -/

/-- Python's `sorted` on numbers: ascending. -/
def pySorted (l : List Rat) : List Rat := l.insertionSort (· ≤ ·)

/-- Python list indexing, including the negative-index convention
(`xs[-1]` is the last element).  All indices produced below are in range,
so the `getD` default is never consulted. -/
def pyGet (l : List Rat) (i : Int) : Rat :=
  if i < 0 then l.getD (l.length - (-i).toNat) 0 else l.getD i.toNat 0

/-- `winsorize(values)` with the default bounds `lower_pct=0.1`,
`upper_pct=0.9` (the only call site uses the defaults):
`lower_idx = int(n*0.1)` and `upper_idx = int(n*0.9)-1`.  Python's `int`
truncates the float product; for every list length that doubles reach,
`int(n*0.1) = n/10` and `int(n*0.9) = 9*n/10` in integer division, which is
how the two indices are modelled.  For `n = 1`, `upper_idx = -1` wraps to
the last element. -/
def winsorize (values : List Rat) : List Rat :=
  if values = [] then []
  else
    let sorted_vals := pySorted values
    let n := sorted_vals.length
    let lower_idx : Int := (n : Int) / 10
    let upper_idx : Int := (9 * n : Int) / 10 - 1
    let lower := pyGet sorted_vals lower_idx
    let upper := pyGet sorted_vals upper_idx
    values.map (fun v => min (max v lower) upper)

/-- `percentile(values, pct)`: linear-interpolation percentile.
The empty-input branch returns `float("nan")` in the source, modelled as
`none` (it is never reached from `analyze`). -/
def percentile (values : List Rat) (pct : Rat) : Option Rat :=
  if values = [] then none
  else
    let sorted_vals := pySorted values
    let k : Rat := ((sorted_vals.length - 1 : Nat) : Rat) * pct
    let f : Nat := k.floor.toNat
    let c : Rat := k - (f : Rat)
    if f + 1 < sorted_vals.length then
      some (sorted_vals.getD f 0 + (sorted_vals.getD (f + 1) 0 - sorted_vals.getD f 0) * c)
    else some (sorted_vals.getD f 0)

/-- `statistics.median`: middle element of the sorted list, or the mean of
the two middle elements.  (Python raises on an empty list; `analyze` only
calls it on non-empty lists, and the `[]` case here returns 0.) -/
def pyMedian (l : List Rat) : Rat :=
  let s := pySorted l
  let n := s.length
  if n % 2 = 1 then s.getD (n / 2) 0
  else (s.getD (n / 2 - 1) 0 + s.getD (n / 2) 0) / 2

/-! ## Valuation engine (`valuation.py`, `analyze`) -/

/-- One row of the `SELECT title, price, final_price, start_date, last_seen,
highest_bid FROM listings` of `analyze`. -/
structure ListingRow where
  title : Option String
  price : Option Rat
  final_price : Option Rat
  start_date : Option String
  last_seen : Option String
  highest_bid : Option Rat
deriving DecidableEq, Repr

/-- Byte-wise string comparison, as SQLite compares `TEXT` values in
`last_seen >= cutoff` (lexicographic on code points). -/
def strLe (a b : String) : Bool :=
  let rec go : List Char → List Char → Bool
    | [], _ => true
    | _ :: _, [] => false
    | c :: cs, d :: ds => if c = d then go cs ds else decide (c < d)
  go a.toList b.toList

/-- Modelled from the spec: `datetime.fromisoformat`, which the source calls
on `start_date` and `last_seen` and which raises `ValueError` (here `none`)
on a malformed string.  Accepted shape: a `YYYY-MM-DD` prefix of digits with
an optional remainder introduced by `'T'`; the timestamp is abstracted to
the rational `y·10000 + m·100 + d` (only presence and well-formedness
matter to the claims, not calendar arithmetic). -/
def parseIsoDate (s : String) : Option Rat :=
  match s.toList with
  | y1 :: y2 :: y3 :: y4 :: '-' :: m1 :: m2 :: '-' :: d1 :: d2 :: rest =>
    let val : List Char → Nat := fun cs => cs.foldl (fun n c => 10 * n + (c.toNat - 48)) 0
    if ([y1, y2, y3, y4, m1, m2, d1, d2].all Char.isDigit) ∧
        (rest = [] ∨ rest.head? = some 'T') then
      some ((val [y1, y2, y3, y4] * 10000 + val [m1, m2] * 100 + val [d1, d2] : Nat) : Rat)
    else none
  | _ => none

/-- `ask = final_price if final_price is not None else price` (line 75). -/
def askOf (final_price price : Option Rat) : Option Rat :=
  match final_price with
  | some f => some f
  | none => price

/-- Lines 78-81: `clearing = max(highest_bid, ask * 0.8)` when a bid is
present, else the ask (0.8 idealised to the exact rational 4/5). -/
def clearingOf (ask : Rat) (highest_bid : Option Rat) : Rat :=
  match highest_bid with
  | some hb => max hb (ask * (4 / 5 : Rat))
  | none => ask

/-- The spec's wording of the per-record clearing price (§4.4 step 3 of the
spec), to be compared with the source's computation: `ask = final_price if
set else price`; no usable ask discards the record; with a bid present the
clearing price is `max(highest_bid, ask * 0.8)`, else the ask itself. -/
def clearing_spec (final_price price highest_bid : Option Rat) : Option Rat :=
  let ask := if final_price ≠ none then final_price else price
  match ask with
  | none => none
  | some a =>
    match highest_bid with
    | some hb => some (max hb (a * (4 / 5 : Rat)))
    | none => some a

/-- The clearing price as the source computes it, `none` when the record is
discarded for lack of a usable ask. -/
def clearing_code (final_price price highest_bid : Option Rat) : Option Rat :=
  match askOf final_price price with
  | none => none
  | some a => some (clearingOf a highest_bid)

/-- The per-key accumulator of `analyze`:
`products.setdefault(key, {"prices": [], "durations": []})`, with the
clearing price appended to `prices` and the duration (when available)
appended to `durations`.  Insertion order of keys is kept, as a Python dict
does. -/
def accAdd (acc : List (String × (List Rat × List Rat))) (key : String)
    (clearing : Rat) (dur : Option Rat) : List (String × (List Rat × List Rat)) :=
  let add : List Rat × List Rat → List Rat × List Rat := fun pd =>
    (pd.1 ++ [clearing], match dur with | some d => pd.2 ++ [d] | none => pd.2)
  if acc.any (fun e => e.1 = key) then
    acc.map (fun e => if e.1 = key then (e.1, add e.2) else e)
  else acc ++ [(key, add ([], []))]

/-- `datetime.fromisoformat(x) if x else None` on an optional timestamp
field: an absent field yields `None`, a malformed string raises
(`Except.error`, named after the field). -/
def parseOptTs (field : String) : Option String → Except String (Option Rat)
  | none => Except.ok none
  | some s =>
    match parseIsoDate s with
    | some t => Except.ok (some t)
    | none => Except.error ("ValueError: fromisoformat(" ++ field ++ ")")

/-- The body of `analyze`'s row loop (lines 71-89).  A `ValueError` escaping
`datetime.fromisoformat` propagates as an `Except.error` (`start_date` is
parsed before `last_seen`, as in the source). -/
def analyzeRow (acc : List (String × (List Rat × List Rat))) (r : ListingRow) :
    Except String (List (String × (List Rat × List Rat))) :=
  match match_product_key (r.title.getD "") with
  | none => Except.ok acc
  | some key =>
    match askOf r.final_price r.price with
    | none => Except.ok acc
    | some ask =>
      let clearing := clearingOf ask r.highest_bid
      match parseOptTs "start_date" r.start_date with
      | Except.error e => Except.error e
      | Except.ok start_dt =>
        match parseOptTs "last_seen" r.last_seen with
        | Except.error e => Except.error e
        | Except.ok last_dt =>
          let duration : Option Rat := match start_dt, last_dt with
            | some a, some b => some (((b - a).floor : Int) : Rat)
            | _, _ => none
          Except.ok (accAdd acc key clearing duration)

/-- The row loop of `analyze`: left fold of `analyzeRow` with exception
propagation made explicit. -/
def analyzeLoop : List ListingRow → List (String × (List Rat × List Rat)) →
    Except String (List (String × (List Rat × List Rat)))
  | [], acc => Except.ok acc
  | r :: rest, acc =>
    match analyzeRow acc r with
    | Except.error e => Except.error e
    | Except.ok acc2 => analyzeLoop rest acc2

/-- The per-product statistics record assembled by `analyze`.
`float("nan")` values (empty duration sample) are modelled as `none`. -/
structure ValStats where
  p25 : Option Rat
  median : Option Rat
  p75 : Option Rat
  time_to_disappear : Option Rat
deriving DecidableEq, Repr

/-- `analyze(db_path)` (lines 59-104) over the rows of the `listings` table;
`cutoff` stands for the 90-days-ago timestamp string.  The `WHERE
last_seen >= ?` filter drops rows whose `last_seen` is `NULL` (SQL `NULL`
comparisons are not true).  The `sqlite3.OperationalError` guard concerns a
missing table/column and is outside this row-level model.  The result is the
per-key statistics mapping; a `ValueError` raised while parsing a timestamp
aborts the run as an `Except.error`. -/
def analyze (cutoff : String) (rows : List ListingRow) :
    Except String (List (String × ValStats)) :=
  let visible := rows.filter (fun r =>
    match r.last_seen with
    | some s => strLe cutoff s
    | none => false)
  match analyzeLoop visible [] with
  | Except.error e => Except.error e
  | Except.ok products =>
    Except.ok (products.map (fun e =>
      let prices := winsorize e.2.1
      (e.1, { p25 := percentile prices (1 / 4 : Rat),
              median := percentile prices (1 / 2 : Rat),
              p75 := percentile prices (3 / 4 : Rat),
              time_to_disappear :=
                if e.2.2 = [] then none else some (pyMedian e.2.2) })))

/-- `true` exactly when `analyze` finished without raising. -/
def exceptOk {ε α : Type} : Except ε α → Bool
  | Except.ok _ => true
  | Except.error _ => false

/-! ## Scraper (`scrape_marktplaats.py`, `is_commercial` / `is_broken_product`
/ `fetch_listings` / `fetch_all_listings`)

The HTTP transport is outside the model: `fetch_listings` is embedded as a
function of the parsed search-result payload (a list of raw listing items)
together with the detail-page fetcher, itself a function from the listing
URL to the detail fields.  Python's `Dict[str, Any]` items are structures
holding the keys the source reads; truthiness tests on payload values are
carried as the corresponding booleans. -/

/-- The seller block of a raw listing.  The two fields model the truthiness
of `sellerInformation["showWebsiteUrl"]` / `["sellerWebsiteUrl"]`. -/
structure SellerInfo where
  showWebsiteUrl : Bool
  sellerWebsiteUrl : Bool
deriving DecidableEq, Repr

/-- One attribute dictionary: its values in order, `some s` for the string
values (`isinstance(value, str)`), `none` for any non-string value. -/
structure Attribute where
  values : List (Option String)
deriving DecidableEq, Repr

/-- A raw listing item of the search-results payload (the keys read by
`is_commercial` and `fetch_listings`; purely informational keys such as
`location`, `imageUrls` and `shippingOptions` do not affect any claim and
are omitted).  `admarktInfo` is the truthiness of `listing.get("admarktInfo")`. -/
structure Item where
  itemId : Option String
  title : Option String
  priceCents : Option Nat
  sellerInformation : Option SellerInfo
  admarktInfo : Bool
  description : Option String
  attributes : Option (List Attribute)
  vipUrl : String
deriving DecidableEq, Repr

/-- The fields of `fetch_listing_details` that take part in the merge
(the remaining detail fields never overwrite a key the claims read). -/
structure Details where
  description : Option String
  attributes : Option (List Attribute)
deriving DecidableEq, Repr

/-- The product dictionary `fetch_listings` builds (the keys the claims
read; `price` is the `f"€{...:.2f}"` display string). -/
structure Product where
  id : Option String
  title : Option String
  price : Option String
  url : String
  description : Option String
  attributes : Option (List Attribute)
  is_broken : Bool
deriving DecidableEq, Repr

/-- `is_commercial(listing)` (lines 148-155): a truthy seller website flag
or a truthy `admarktInfo` marks a commercial advertisement. -/
def is_commercial (listing : Item) : Bool :=
  let seller := listing.sellerInformation.getD ⟨false, false⟩
  if seller.showWebsiteUrl || seller.sellerWebsiteUrl then true
  else if listing.admarktInfo then true
  else false

/-- The broken-product keywords. -/
def brokenKeywords : List (List Char) :=
  ["defect".toList, "broken".toList, "parts".toList, "spares".toList, "repair".toList]

/-- `needle in hay` on character lists (Python's substring test). -/
def containsSub (needle hay : List Char) : Bool :=
  hay.tails.any (fun t => needle.isPrefixOf t)

/-- `" ".join(parts)`. -/
def joinSpace : List (List Char) → List Char
  | [] => []
  | [x] => x
  | x :: xs => x ++ ' ' :: joinSpace xs

/-- `is_broken_product(listing)` (lines 158-180): lower-case the description
(`None` read as `""`) and every string attribute value, join them with
spaces, and look for any of the keywords. -/
def is_broken_product (p : Product) : Bool :=
  let text_parts : List (List Char) :=
    lowerStr (p.description.getD "") ::
      (p.attributes.getD []).flatMap
        (fun attr => attr.values.filterMap (fun v => v.map lowerStr))
  let text := joinSpace text_parts
  brokenKeywords.any (fun keyword => containsSub keyword text)

/-- The price display string `f"€{price_cents / 100:.2f}"`, for the
non-negative cent amounts the payload carries. -/
def formatEuro (cents : Nat) : String :=
  let r := cents % 100
  "€" ++ toString (cents / 100) ++ "." ++ (if r < 10 then "0" else "") ++ toString r

/-- The product dictionary built for one non-commercial item
(lines 256-288), including the merge of missing fields from the detail
page: a key whose current value is `None` (or, for the attribute list,
also `[]`) is replaced by the detail-page value. -/
def buildProduct (details : String → Details) (item : Item) : Product :=
  let price := item.priceCents.map formatEuro
  let url := "https://www.marktplaats.nl" ++ item.vipUrl
  let d := details url
  let description := match item.description with
    | none => d.description
    | some s => some s
  let attributes := match item.attributes with
    | none => d.attributes
    | some [] => d.attributes
    | some l => some l
  let base : Product :=
    { id := item.itemId, title := item.title, price := price, url := url,
      description := description, attributes := attributes, is_broken := false }
  { base with is_broken := is_broken_product base }

/-- `fetch_listings(url)` (lines 235-296) over the parsed payload: skip
commercial items, build the product (with detail-page merge), keep only the
products classified as broken. -/
def fetch_listings (details : String → Details) (listings : List Item) : List Product :=
  listings.foldl
    (fun products item =>
      if is_commercial item then products
      else
        let product := buildProduct details item
        if !product.is_broken then products
        else products ++ [product])
    []

/-- The page loop of `fetch_all_listings` (lines 299-318): `pages` is the
sequence of per-page `fetch_listings` results; once the supplied pages are
exhausted, further fetches yield no products, hence no new ids, and the
loop breaks.  A page contributes the products whose id was not seen on an
earlier page; a page contributing nothing ends the loop. -/
def fetchAllGo : List (List Product) → List Product → List (Option String) → List Product
  | [], acc, _ => acc
  | pg :: rest, acc, seen =>
    let newProducts := pg.filter (fun p => decide (p.id ∉ seen))
    if newProducts.isEmpty then acc
    else fetchAllGo rest (acc ++ newProducts) (seen ++ newProducts.map (fun p => p.id))

/-- `fetch_all_listings(url)` as a function of the per-page results. -/
def fetch_all_listings (pages : List (List Product)) : List Product :=
  fetchAllGo pages [] []

/-! ## Spec-side definitions

Definitions written from the words of the specification, named `*_claim` or
`*_spec`, to be compared with the source-side definitions above. -/

/-- Winsorize as the specification words it: clamp every value into
`[sorted[lower], sorted[upper]]` with `lower = floor(n*0.1)` and
`upper = ceil(n*0.9) - 1` (`ceil(9n/10) = (9n+9)/10` on integers). -/
def winsorize_claim (values : List Rat) : List Rat :=
  if values = [] then []
  else
    let s := pySorted values
    let n := s.length
    let lower := pyGet s ((n : Int) / 10)
    let upper := pyGet s ((9 * n + 9 : Int) / 10 - 1)
    values.map (fun v => min (max v lower) upper)

/-- The list of `(key, score)` pairs of every pattern of every key, in
configuration order. -/
def scoreList (rules : List (String × List String)) (title : String) :
    List (String × Frac) :=
  rules.flatMap (fun kp =>
    kp.2.map (fun pat => (kp.1, fuzzPartial (lowerStr pat) (lowerStr title))))

/-- The highest score across all keys and patterns (at least 0). -/
def maxScore (rules : List (String × List String)) (title : String) : Frac :=
  (scoreList rules title).foldl (fun m ks => fracMax m ks.2) ⟨0, 1⟩

/-- The matcher as the specification words it: the key with the highest
score, ties broken by first declaration order, provided the highest score
meets the threshold; nothing otherwise. -/
def match_spec (rules : List (String × List String)) (title : String) :
    Option String :=
  if Frac.le THRESHOLD (maxScore rules title) then
    ((scoreList rules title).find?
      (fun ks => decide (Frac.equiv ks.2 (maxScore rules title)))).map Prod.fst
  else none

/-- The invariant claimed for the store: a sold record has `price` unset
and `final_price` set. -/
def soldInvariant (store : List DBRecord) : Prop :=
  ∀ r ∈ store, r.status = Status.sold → r.price = none ∧ r.final_price ≠ none

instance soldInvariant.dec (store : List DBRecord) : Decidable (soldInvariant store) := by
  unfold soldInvariant; infer_instance

/-- The part of the invariant the code does maintain: a sold record has
`price` unset. -/
def soldPriceClear (store : List DBRecord) : Prop :=
  ∀ r ∈ store, r.status = Status.sold → r.price = none

instance soldPriceClear.dec (store : List DBRecord) : Decidable (soldPriceClear store) := by
  unfold soldPriceClear; infer_instance

/-! ## Exact rational order on `Frac` (lemma kit)

All scores built by the matcher have positive denominators; the order
lemmas take the needed positivity as hypotheses. -/

theorem Frac.lt_irrefl (x : Frac) : ¬ Frac.lt x x := by
  simp [Frac.lt]

theorem Frac.lt_asymm {x y : Frac} (h : Frac.lt x y) : ¬ Frac.lt y x := by
  simp only [Frac.lt] at h ⊢
  omega

theorem Frac.equiv_of_not_lt {x y : Frac} (h1 : ¬ Frac.lt x y) (h2 : ¬ Frac.lt y x) :
    Frac.equiv x y := by
  simp only [Frac.lt] at h1 h2
  simp only [Frac.equiv]
  omega

theorem Frac.equiv_refl (x : Frac) : Frac.equiv x x := rfl

theorem Frac.not_equiv_of_lt {x y : Frac} (h : Frac.lt x y) : ¬ Frac.equiv x y := by
  simp only [Frac.lt] at h
  simp only [Frac.equiv]
  omega

/-- `x ≤ y → y ≤ z → x ≤ z`, with `≤` read as the negated reverse `lt`;
needs the middle denominator positive. -/
theorem Frac.le_trans {x y z : Frac} (hy : 0 < y.den)
    (h1 : ¬ Frac.lt y x) (h2 : ¬ Frac.lt z y) : ¬ Frac.lt z x := by
  simp only [Frac.lt, not_lt] at h1 h2 ⊢
  have a1 : x.num * y.den * z.den ≤ y.num * x.den * z.den :=
    Nat.mul_le_mul_right z.den h1
  have a2 : y.num * z.den * x.den ≤ z.num * y.den * x.den :=
    Nat.mul_le_mul_right x.den h2
  have key : x.num * z.den * y.den ≤ z.num * x.den * y.den := by
    calc x.num * z.den * y.den = x.num * y.den * z.den := by ring
      _ ≤ y.num * x.den * z.den := a1
      _ = y.num * z.den * x.den := by ring
      _ ≤ z.num * y.den * x.den := a2
      _ = z.num * x.den * y.den := by ring
  exact Nat.le_of_mul_le_mul_right key hy

/-- `x < y → y ≤ z → x < z`; needs the middle and right denominators
positive. -/
theorem Frac.lt_of_lt_of_le {x y z : Frac} (hz : 0 < z.den)
    (h1 : Frac.lt x y) (h2 : ¬ Frac.lt z y) : Frac.lt x z := by
  simp only [Frac.lt, not_lt] at h1 h2 ⊢
  have a1 : x.num * y.den * z.den < y.num * x.den * z.den :=
    Nat.mul_lt_mul_of_lt_of_le h1 (Nat.le_refl z.den) hz
  have a2 : y.num * z.den * x.den ≤ z.num * y.den * x.den :=
    Nat.mul_le_mul_right x.den h2
  have key : x.num * z.den * y.den < z.num * x.den * y.den := by
    calc x.num * z.den * y.den = x.num * y.den * z.den := by ring
      _ < y.num * x.den * z.den := a1
      _ = y.num * z.den * x.den := by ring
      _ ≤ z.num * y.den * x.den := a2
      _ = z.num * x.den * y.den := by ring
  exact Nat.lt_of_mul_lt_mul_right key

/-- `x ≤ y → y < z → x < z`; needs the left and middle denominators
positive. -/
theorem Frac.lt_of_le_of_lt {x y z : Frac} (hx : 0 < x.den)
    (h1 : ¬ Frac.lt y x) (h2 : Frac.lt y z) : Frac.lt x z := by
  simp only [Frac.lt, not_lt] at h1 h2 ⊢
  have a1 : x.num * y.den * z.den ≤ y.num * x.den * z.den :=
    Nat.mul_le_mul_right z.den h1
  have a2 : y.num * z.den * x.den < z.num * y.den * x.den :=
    Nat.mul_lt_mul_of_lt_of_le h2 (Nat.le_refl x.den) hx
  have key : x.num * z.den * y.den < z.num * x.den * y.den := by
    calc x.num * z.den * y.den = x.num * y.den * z.den := by ring
      _ ≤ y.num * x.den * z.den := a1
      _ = y.num * z.den * x.den := by ring
      _ < z.num * y.den * x.den := a2
      _ = z.num * x.den * y.den := by ring
  exact Nat.lt_of_mul_lt_mul_right key

/-! ### The running maximum of a score list -/

theorem fracMax_cases (m s : Frac) :
    fracMax m s = m ∨ (fracMax m s = s ∧ Frac.lt m s) := by
  unfold fracMax
  by_cases h : Frac.lt m s
  · right; simp [h]
  · left; simp [h]

theorem fracMax_den_pos {m s : Frac} (hm : 0 < m.den) (hs : 0 < s.den) :
    0 < (fracMax m s).den := by
  rcases fracMax_cases m s with h | ⟨h, _⟩ <;> rw [h] <;> assumption

theorem fracMax_ge_left (m s : Frac) : ¬ Frac.lt (fracMax m s) m := by
  rcases fracMax_cases m s with h | ⟨h, hlt⟩ <;> rw [h]
  · exact Frac.lt_irrefl m
  · exact Frac.lt_asymm hlt

theorem fracMax_ge_right (m s : Frac) : ¬ Frac.lt (fracMax m s) s := by
  unfold fracMax
  by_cases h : Frac.lt m s
  · rw [if_pos h]; exact Frac.lt_irrefl s
  · rw [if_neg h]; exact h

theorem foldFracMax_den_pos (l : List Frac) (m : Frac) (hm : 0 < m.den)
    (hl : ∀ s ∈ l, 0 < s.den) : 0 < (l.foldl fracMax m).den := by
  induction l generalizing m with
  | nil => exact hm
  | cons s rest ih =>
    exact ih (fracMax m s) (fracMax_den_pos hm (hl s (List.mem_cons_self _ _)))
      (fun x hx => hl x (List.mem_cons_of_mem _ hx))

theorem foldFracMax_ge_init (l : List Frac) (m : Frac) (hm : 0 < m.den)
    (hl : ∀ s ∈ l, 0 < s.den) : ¬ Frac.lt (l.foldl fracMax m) m := by
  induction l generalizing m with
  | nil => exact Frac.lt_irrefl m
  | cons s rest ih =>
    have hs : 0 < s.den := hl s (List.mem_cons_self _ _)
    have hrest : ∀ y ∈ rest, 0 < y.den := fun y hy => hl y (List.mem_cons_of_mem _ hy)
    have h1 : ¬ Frac.lt (rest.foldl fracMax (fracMax m s)) (fracMax m s) :=
      ih (fracMax m s) (fracMax_den_pos hm hs) hrest
    exact Frac.le_trans (fracMax_den_pos hm hs) (fracMax_ge_left m s) h1

theorem foldFracMax_ge_mem (l : List Frac) (m : Frac) (hm : 0 < m.den)
    (hl : ∀ s ∈ l, 0 < s.den) (x : Frac) (hx : x ∈ l) :
    ¬ Frac.lt (l.foldl fracMax m) x := by
  induction l generalizing m with
  | nil => cases hx
  | cons s rest ih =>
    have hs : 0 < s.den := hl s (List.mem_cons_self _ _)
    have hrest : ∀ y ∈ rest, 0 < y.den := fun y hy => hl y (List.mem_cons_of_mem _ hy)
    rcases List.mem_cons.mp hx with rfl | hx'
    · have h1 : ¬ Frac.lt (rest.foldl fracMax (fracMax m x)) (fracMax m x) :=
        foldFracMax_ge_init rest (fracMax m x) (fracMax_den_pos hm hs) hrest
      exact Frac.le_trans (fracMax_den_pos hm hs) (fracMax_ge_right m x) h1
    · exact ih (fracMax m s) (fracMax_den_pos hm hs) hrest hx'

theorem foldFracMax_dichotomy (l : List Frac) (m : Frac) (hm : 0 < m.den)
    (hl : ∀ s ∈ l, 0 < s.den) :
    l.foldl fracMax m = m ∨ Frac.lt m (l.foldl fracMax m) := by
  induction l generalizing m with
  | nil => exact Or.inl rfl
  | cons s rest ih =>
    have hs : 0 < s.den := hl s (List.mem_cons_self _ _)
    have hrest : ∀ y ∈ rest, 0 < y.den := fun y hy => hl y (List.mem_cons_of_mem _ hy)
    simp only [List.foldl_cons]
    rcases fracMax_cases m s with h | ⟨h, hlt⟩ <;> rw [h]
    · exact ih m hm hrest
    · have hfd : 0 < (rest.foldl fracMax s).den := foldFracMax_den_pos rest s hs hrest
      rcases ih s hs hrest with h2 | h2
      · rw [h2]; exact Or.inr hlt
      · exact Or.inr (Frac.lt_of_lt_of_le hfd hlt (Frac.lt_asymm h2))

/-! ## Listing-store lemmas -/

theorem mark_snd (store : List DBRecord) (seen_ids : List String) :
    (mark_missing_as_sold store seen_ids).2 =
      ((store.filter (fun r => decide (r.status = Status.available))).map
        (fun r => r.id)).filter (fun i => decide (i ∉ seen_ids)) := rfl

theorem mark_fst (store : List DBRecord) (seen_ids : List String) :
    (mark_missing_as_sold store seen_ids).1 =
      store.map (fun r =>
        if r.id ∈ (mark_missing_as_sold store seen_ids).2 then soldify r else r) := rfl

/-- Membership in the `missing` set computed by `mark_missing_as_sold`. -/
theorem mem_mark_snd {store : List DBRecord} {seen_ids : List String} {i : String} :
    i ∈ (mark_missing_as_sold store seen_ids).2 ↔
      (∃ r ∈ store, r.status = Status.available ∧ r.id = i) ∧ i ∉ seen_ids := by
  rw [mark_snd]
  simp only [List.mem_filter, List.mem_map, List.mem_filter, decide_eq_true_eq]
  constructor
  · rintro ⟨⟨r, ⟨hr, hst⟩, rfl⟩, hni⟩
    exact ⟨⟨r, hr, hst, rfl⟩, hni⟩
  · rintro ⟨⟨r, hr, hst, rfl⟩, hni⟩
    exact ⟨⟨r, ⟨hr, hst⟩, rfl⟩, hni⟩

/-- An available record whose id is missing from `seen_ids` is transitioned
by `soldify`. -/
theorem mark_transitions {store : List DBRecord} {seen_ids : List String} {r : DBRecord}
    (hr : r ∈ store) (hst : r.status = Status.available) (hid : r.id ∉ seen_ids) :
    soldify r ∈ (mark_missing_as_sold store seen_ids).1 := by
  rw [mark_fst]
  have hmem : r.id ∈ (mark_missing_as_sold store seen_ids).2 :=
    mem_mark_snd.mpr ⟨⟨r, hr, hst, rfl⟩, hid⟩
  exact List.mem_map.mpr ⟨r, hr, by rw [if_pos hmem]⟩

/-- C10: applying `mark_missing_as_sold` twice with the same `seen_ids` is
the same as applying it once — the second application transitions nothing
(its `missing` set is empty) and leaves the table unchanged. -/
theorem claim_C10_mark_missing_idempotent (store : List DBRecord) (seen_ids : List String) :
    mark_missing_as_sold (mark_missing_as_sold store seen_ids).1 seen_ids =
      ((mark_missing_as_sold store seen_ids).1, []) := by
  have hsnd : (mark_missing_as_sold (mark_missing_as_sold store seen_ids).1 seen_ids).2
      = [] := by
    rw [List.eq_nil_iff_forall_not_mem]
    intro i hi
    rcases mem_mark_snd.mp hi with ⟨⟨r', hr', hst', rfl⟩, hni⟩
    rw [mark_fst] at hr'
    rcases List.mem_map.mp hr' with ⟨r, hr, hfr⟩
    by_cases hmem : r.id ∈ (mark_missing_as_sold store seen_ids).2
    · rw [if_pos hmem] at hfr
      rw [← hfr] at hst'
      simp [soldify] at hst'
    · rw [if_neg hmem] at hfr
      subst hfr
      rcases mem_mark_snd.mp hi with ⟨⟨r'', hr'', hst'', hid''⟩, _⟩
      exact hmem (mem_mark_snd.mpr ⟨⟨r, hr, hst', rfl⟩, hni⟩)
  refine Prod.ext ?_ hsnd
  rw [mark_fst (mark_missing_as_sold store seen_ids).1 seen_ids, hsnd]
  simp

/-- C1: an available stored listing with price `p` whose id is absent from
`seen_ids` is transitioned by the mark-missing-as-sold step to a sold record
with `final_price = p` and `price` unset, and the step's `missing` output is
exactly the set of ids so transitioned.  (The code's status string for the
spec's `active` is `'available'`.) -/
theorem claim_C1_mark_missing_round_trip (store : List DBRecord) (seen_ids : List String)
    (r : DBRecord) (p : Rat) (hr : r ∈ store) (hst : r.status = Status.available)
    (hp : r.price = some p) (hid : r.id ∉ seen_ids) :
    (∃ r' ∈ (mark_missing_as_sold store seen_ids).1,
      r'.id = r.id ∧ r'.status = Status.sold ∧ r'.final_price = some p ∧
        r'.price = none) ∧
    r.id ∈ (mark_missing_as_sold store seen_ids).2 ∧
    (∀ i, i ∈ (mark_missing_as_sold store seen_ids).2 ↔
      (∃ x ∈ store, x.status = Status.available ∧ x.id ∉ seen_ids ∧ x.id = i)) := by
  refine ⟨⟨soldify r, mark_transitions hr hst hid, ?_⟩, ?_, ?_⟩
  · simp [soldify, hp]
  · exact mem_mark_snd.mpr ⟨⟨r, hr, hst, rfl⟩, hid⟩
  · intro i
    rw [mem_mark_snd]
    constructor
    · rintro ⟨⟨x, hx, hst', rfl⟩, hni⟩
      exact ⟨x, hx, hst', hni, rfl⟩
    · rintro ⟨x, hx, hst', hni, rfl⟩
      exact ⟨⟨x, hx, hst', rfl⟩, hni⟩

/-- Witness for C1 at a concrete store: the record `"A"` with price 120,
absent from `seen_ids = ["B"]`. -/
theorem claim_C1_witness :
    (∃ r' ∈ (mark_missing_as_sold
        [⟨"A", some "solis", some 120, Status.available, "t0", none, none⟩] ["B"]).1,
      r'.id = "A" ∧ r'.status = Status.sold ∧ r'.final_price = some 120 ∧
        r'.price = none) ∧
    "A" ∈ (mark_missing_as_sold
        [⟨"A", some "solis", some 120, Status.available, "t0", none, none⟩] ["B"]).2 := by
  have h := claim_C1_mark_missing_round_trip
    [⟨"A", some "solis", some 120, Status.available, "t0", none, none⟩] ["B"]
    ⟨"A", some "solis", some 120, Status.available, "t0", none, none⟩ 120
    (by decide) (by decide) (by decide) (by decide)
  exact ⟨h.1, h.2.1⟩

/-! ## C3: the sold-record invariant -/

/-- C3 counterexample: an available record with no price satisfies the
claimed invariant, yet after going missing it is sold with `final_price`
unset (`UPDATE ... SET final_price=price` copies a `NULL` price), so the
invariant is not preserved by `mark_missing_as_sold`. -/
theorem claim_C3_counterexample :
    soldInvariant [⟨"A", some "solis", none, Status.available, "t0", none, none⟩] ∧
    ¬ soldInvariant
      (mark_missing_as_sold
        [⟨"A", some "solis", none, Status.available, "t0", none, none⟩] []).1 := by
  constructor
  · decide
  · decide

theorem soldPriceClear_upsertOne {store : List DBRecord} (now : String) (p : ProductIn)
    (h : soldPriceClear store) : soldPriceClear (upsertOne now store p) := by
  intro r' hr' hst'
  unfold upsertOne at hr'
  by_cases hany : store.any (fun r => r.id = p.id)
  · rw [if_pos hany] at hr'
    rcases List.mem_map.mp hr' with ⟨r, hr, hfr⟩
    by_cases hid : r.id = p.id
    · rw [if_pos hid] at hfr
      rw [← hfr] at hst'
      simp at hst'
    · rw [if_neg hid] at hfr
      exact h r' (hfr ▸ hr) hst'
  · rw [if_neg hany] at hr'
    rcases List.mem_append.mp hr' with hr | hr
    · exact h r' hr hst'
    · rcases List.mem_singleton.mp hr with rfl
      simp at hst'

theorem soldPriceClear_foldUpsert {store : List DBRecord} (now : String)
    (products : List ProductIn) (h : soldPriceClear store) :
    soldPriceClear (products.foldl (upsertOne now) store) := by
  induction products generalizing store with
  | nil => exact h
  | cons p rest ih => exact ih (soldPriceClear_upsertOne now p h)

theorem soldPriceClear_mark {store : List DBRecord} (seen_ids : List String)
    (h : soldPriceClear store) :
    soldPriceClear (mark_missing_as_sold store seen_ids).1 := by
  intro r' hr' hst'
  rw [mark_fst] at hr'
  rcases List.mem_map.mp hr' with ⟨r, hr, hfr⟩
  by_cases hmem : r.id ∈ (mark_missing_as_sold store seen_ids).2
  · rw [if_pos hmem] at hfr
    rw [← hfr]
    rfl
  · rw [if_neg hmem] at hfr
    exact h r' (hfr ▸ hr) hst'

/-- C3 amended: both store operations preserve the weaker invariant
"`status = sold` implies `price` unset"; on a transition, `final_price`
receives the price the record held at that moment — so it is set exactly
when that price was set, and stays unset for a record that had no price. -/
theorem claim_C3_amended (now : String) (store : List DBRecord)
    (products : List ProductIn) (seen_ids : List String)
    (h : soldPriceClear store) :
    soldPriceClear (products.foldl (upsertOne now) store) ∧
    soldPriceClear (mark_missing_as_sold store seen_ids).1 ∧
    soldPriceClear (update_database now store products).1 ∧
    (∀ r ∈ store, r.status = Status.available → r.id ∉ seen_ids →
      soldify r ∈ (mark_missing_as_sold store seen_ids).1 ∧
        (soldify r).final_price = r.price ∧ (soldify r).price = none) := by
  refine ⟨soldPriceClear_foldUpsert now products h, soldPriceClear_mark seen_ids h, ?_, ?_⟩
  · exact soldPriceClear_mark _ (soldPriceClear_foldUpsert now products h)
  · intro r hr hst hid
    exact ⟨mark_transitions hr hst hid, rfl, rfl⟩

/-- Witness for C3 amended at a concrete store holding a priceless available
record and a well-formed sold record. -/
theorem claim_C3_amended_witness :
    soldPriceClear (mark_missing_as_sold
      [⟨"A", some "solis", none, Status.available, "t0", none, none⟩,
       ⟨"B", none, none, Status.sold, "t0", some 99, none⟩] []).1 ∧
    soldify ⟨"A", some "solis", none, Status.available, "t0", none, none⟩ ∈
      (mark_missing_as_sold
        [⟨"A", some "solis", none, Status.available, "t0", none, none⟩,
         ⟨"B", none, none, Status.sold, "t0", some 99, none⟩] []).1 := by
  have h := claim_C3_amended "t1"
    [⟨"A", some "solis", none, Status.available, "t0", none, none⟩,
     ⟨"B", none, none, Status.sold, "t0", some 99, none⟩] [] []
    (by decide)
  exact ⟨h.2.1, (h.2.2.2 ⟨"A", some "solis", none, Status.available, "t0", none, none⟩
    (by decide) (by decide) (by decide)).1⟩

/-! ## C8: no transition is terminal -/

/-- "The store holds id `i`, and every record carrying `i` is available." -/
def availPresent (store : List DBRecord) (i : String) : Prop :=
  (∃ r ∈ store, r.id = i) ∧ (∀ r ∈ store, r.id = i → r.status = Status.available)

theorem availPresent_upsert_self (now : String) (store : List DBRecord) (p : ProductIn) :
    availPresent (upsertOne now store p) p.id := by
  unfold availPresent upsertOne
  by_cases hany : store.any (fun r => r.id = p.id)
  · rw [if_pos hany]
    rcases List.any_eq_true.mp hany with ⟨r, hr, hid⟩
    constructor
    · refine ⟨_, List.mem_map.mpr ⟨r, hr, rfl⟩, ?_⟩
      rw [if_pos (of_decide_eq_true hid)]
      exact of_decide_eq_true hid
    · intro r' hr' hid'
      rcases List.mem_map.mp hr' with ⟨x, hx, hfx⟩
      by_cases hxid : x.id = p.id
      · rw [if_pos hxid] at hfx
        rw [← hfx]
      · rw [if_neg hxid] at hfx
        rw [← hfx] at hid'
        exact absurd hid' hxid
  · rw [if_neg hany]
    constructor
    · exact ⟨_, List.mem_append_right _ (List.mem_singleton.mpr rfl), rfl⟩
    · intro r' hr' hid'
      rcases List.mem_append.mp hr' with hr | hr
      · exact absurd (List.any_eq_true.mpr ⟨r', hr, decide_eq_true hid'⟩) hany
      · rcases List.mem_singleton.mp hr with rfl
        rfl

theorem availPresent_upsert_pres (now : String) (store : List DBRecord) (q : ProductIn)
    (i : String) (h : availPresent store i) : availPresent (upsertOne now store q) i := by
  obtain ⟨⟨r0, hr0, hid0⟩, hall⟩ := h
  unfold availPresent upsertOne
  by_cases hany : store.any (fun r => r.id = q.id)
  · rw [if_pos hany]
    constructor
    · refine ⟨_, List.mem_map.mpr ⟨r0, hr0, rfl⟩, ?_⟩
      by_cases hrq : r0.id = q.id
      · rw [if_pos hrq]; exact hid0
      · rw [if_neg hrq]; exact hid0
    · intro r' hr' hid'
      rcases List.mem_map.mp hr' with ⟨x, hx, hfx⟩
      by_cases hxq : x.id = q.id
      · rw [if_pos hxq] at hfx
        rw [← hfx]
      · rw [if_neg hxq] at hfx
        exact hfx ▸ hall x hx (by rw [← hfx] at hid'; exact hid')
  · rw [if_neg hany]
    constructor
    · exact ⟨r0, List.mem_append_left _ hr0, hid0⟩
    · intro r' hr' hid'
      rcases List.mem_append.mp hr' with hr | hr
      · exact hall r' hr hid'
      · rcases List.mem_singleton.mp hr with rfl
        rfl

theorem availPresent_foldUpsert_pres (now : String) (store : List DBRecord)
    (products : List ProductIn) (i : String) (h : availPresent store i) :
    availPresent (products.foldl (upsertOne now) store) i := by
  induction products generalizing store with
  | nil => exact h
  | cons p rest ih => exact ih _ (availPresent_upsert_pres now store p i h)

theorem availPresent_foldUpsert (now : String) (store : List DBRecord)
    (products : List ProductIn) (i : String) (hi : i ∈ products.map (fun p => p.id)) :
    availPresent (products.foldl (upsertOne now) store) i := by
  induction products generalizing store with
  | nil => cases hi
  | cons p rest ih =>
    rcases List.mem_cons.mp hi with h | h
    · subst h
      exact availPresent_foldUpsert_pres now _ rest p.id
        (availPresent_upsert_self now store p)
    · exact ih _ h

theorem availPresent_mark_seen (store : List DBRecord) (seen_ids : List String)
    (i : String) (hi : i ∈ seen_ids) (h : availPresent store i) :
    availPresent (mark_missing_as_sold store seen_ids).1 i := by
  obtain ⟨⟨r0, hr0, hid0⟩, hall⟩ := h
  have hfix : ∀ r ∈ store, r.id = i →
      (if r.id ∈ (mark_missing_as_sold store seen_ids).2 then soldify r else r) = r := by
    intro r hr hid
    rw [if_neg]
    intro hmem
    rcases mem_mark_snd.mp hmem with ⟨_, hni⟩
    exact hni (hid ▸ hi)
  constructor
  · rw [mark_fst]
    exact ⟨r0, List.mem_map.mpr ⟨r0, hr0, hfix r0 hr0 hid0⟩, hid0⟩
  · intro r' hr' hid'
    rw [mark_fst] at hr'
    rcases List.mem_map.mp hr' with ⟨x, hx, hfx⟩
    by_cases hmem : x.id ∈ (mark_missing_as_sold store seen_ids).2
    · rw [if_pos hmem] at hfx
      rcases mem_mark_snd.mp hmem with ⟨_, hni⟩
      have : x.id = i := by rw [← hfx] at hid'; exact hid'
      exact absurd (this ▸ hi) hni
    · rw [if_neg hmem] at hfx
      exact hfx ▸ hall x hx (by rw [← hfx] at hid'; exact hid')

/-- The status the store holds for an id. -/
def statusInStore (store : List DBRecord) (i : String) : Option Status :=
  (store.find? (fun r => r.id = i)).map (fun r => r.status)

/-- C8: no status transition is terminal.  Whenever a reconciliation run's
batch contains an id, the run leaves that id present and `'available'`
(the spec's `active`) — in particular a previously sold record is restored.
Concretely, with run 1 seeing `{A, B}`, run 2 seeing `{A}` and run 3 seeing
`{A, B}` again, record `B` ends run 2 sold and ends run 3 available. -/
theorem claim_C8_no_terminal_transition :
    (∀ (now : String) (store : List DBRecord) (products : List ProductIn) (i : String),
      i ∈ products.map (fun p => p.id) →
      (∃ r ∈ (update_database now store products).1, r.id = i) ∧
      (∀ r ∈ (update_database now store products).1, r.id = i →
        r.status = Status.available)) ∧
    statusInStore (update_database "t2"
      (update_database "t1" [] [⟨"A", none, none, none⟩, ⟨"B", none, none, none⟩]).1
      [⟨"A", none, none, none⟩]).1 "B" = some Status.sold ∧
    statusInStore (update_database "t3"
      (update_database "t2"
        (update_database "t1" [] [⟨"A", none, none, none⟩, ⟨"B", none, none, none⟩]).1
        [⟨"A", none, none, none⟩]).1
      [⟨"A", none, none, none⟩, ⟨"B", none, none, none⟩]).1 "B" =
        some Status.available := by
  refine ⟨?_, by decide, by decide⟩
  intro now store products i hi
  have h := availPresent_mark_seen (products.foldl (upsertOne now) store)
    (products.map (fun p => p.id)) i hi
    (availPresent_foldUpsert now store products i hi)
  exact h

/-- Witness for C8's general clause: a batch containing id `"A"` leaves
`"A"` available even from a store where it was sold. -/
theorem claim_C8_witness :
    (∃ r ∈ (update_database "t9"
        [⟨"A", none, none, Status.sold, "t0", some 5, none⟩]
        [⟨"A", none, none, none⟩]).1, r.id = "A") ∧
    (∀ r ∈ (update_database "t9"
        [⟨"A", none, none, Status.sold, "t0", some 5, none⟩]
        [⟨"A", none, none, none⟩]).1, r.id = "A" → r.status = Status.available) :=
  claim_C8_no_terminal_transition.1 "t9"
    [⟨"A", none, none, Status.sold, "t0", some 5, none⟩]
    [⟨"A", none, none, none⟩] "A" (by decide)

/-! ## C2: winsorize -/

/-- The lower clamp bound of `winsorize`: `sorted_vals[int(n*0.1)]`. -/
def winsorLower (values : List Rat) : Rat :=
  pyGet (pySorted values) (((pySorted values).length : Int) / 10)

/-- The upper clamp bound of `winsorize`: `sorted_vals[int(n*0.9) - 1]`. -/
def winsorUpper (values : List Rat) : Rat :=
  pyGet (pySorted values) ((9 * ((pySorted values).length : Int)) / 10 - 1)

theorem pySorted_length (values : List Rat) : (pySorted values).length = values.length :=
  (List.perm_insertionSort (· ≤ ·) values).length_eq

theorem pySorted_sorted (values : List Rat) : List.Sorted (· ≤ ·) (pySorted values) :=
  List.sorted_insertionSort (· ≤ ·) values

theorem sorted_getD_mono {l : List Rat} (hs : List.Sorted (· ≤ ·) l) {i j : Nat}
    (hij : i ≤ j) (hj : j < l.length) : l.getD i 0 ≤ l.getD j 0 := by
  rcases Nat.eq_or_lt_of_le hij with rfl | hlt
  · exact le_refl _
  · have hi : i < l.length := lt_trans hlt hj
    rw [List.getD_eq_getElem?_getD, List.getD_eq_getElem?_getD,
      List.getElem?_eq_getElem hi, List.getElem?_eq_getElem hj]
    have := hs.rel_get_of_lt (a := ⟨i, hi⟩) (b := ⟨j, hj⟩) (by exact hlt)
    simpa [List.get_eq_getElem] using this

theorem pyGet_nonneg_index (l : List Rat) (k : Nat) :
    pyGet l (k : Int) = l.getD k 0 := by
  unfold pyGet
  rw [if_neg (by omega), Int.toNat_natCast]

/-- C2 counterexample: on `[1,2,3,4,100]` the code clamps to
`sorted[int(n*0.9)-1] = sorted[3] = 4` and yields `[1,2,3,4,4]`, while the
claim's formula `upper = ceil(n*0.9)-1 = 4` would leave the sample
unchanged at `[1,2,3,4,100]`; the claim's own concrete instance matches
the code, its general formula does not. -/
theorem claim_C2_counterexample :
    winsorize [1, 2, 3, 4, 100] = [1, 2, 3, 4, 4] ∧
    winsorize_claim [1, 2, 3, 4, 100] = [1, 2, 3, 4, 100] ∧
    winsorize [1, 2, 3, 4, 100] ≠ winsorize_claim [1, 2, 3, 4, 100] := by
  refine ⟨by decide, by decide, by decide⟩

/-- C2 amended: for every non-empty list, `winsorize` clamps each value into
the closed interval `[sorted[lower], sorted[upper]]` of the same sample with
`lower = floor(n*0.1)` and `upper = floor(n*0.9) - 1` (for `n = 1` the index
`-1` wraps to the single element); in particular the interval is well formed
(`lower bound ≤ upper bound`), and `[1,2,3,4,100]` maps to `[1,2,3,4,4]`. -/
theorem claim_C2_amended (values : List Rat) (h : values ≠ []) :
    winsorize values =
      values.map (fun v => min (max v (winsorLower values)) (winsorUpper values)) ∧
    winsorLower values ≤ winsorUpper values ∧
    (∀ x ∈ winsorize values,
      winsorLower values ≤ x ∧ x ≤ winsorUpper values) ∧
    winsorize [1, 2, 3, 4, 100] = [1, 2, 3, 4, 4] := by
  have hmap : winsorize values =
      values.map (fun v => min (max v (winsorLower values)) (winsorUpper values)) := by
    unfold winsorize winsorLower winsorUpper
    rw [if_neg h]
  have hlen : 0 < (pySorted values).length := by
    rw [pySorted_length]
    exact List.length_pos_of_ne_nil h
  have hle : winsorLower values ≤ winsorUpper values := by
    rcases Nat.lt_or_ge (pySorted values).length 2 with h2 | h2
    · -- n = 1: both bounds are the single element
      have h1 : (pySorted values).length = 1 := by omega
      unfold winsorLower winsorUpper
      rw [h1]
      have hidx : ((9 * ((1 : Nat) : Int)) / 10 - 1 : Int) = -1 := by decide
      have hidx' : (((1 : Nat) : Int) / 10 : Int) = ((0 : Nat) : Int) := by decide
      rw [hidx, hidx']
      rw [pyGet_nonneg_index]
      unfold pyGet
      rw [if_pos (by decide)]
      rw [h1]
      exact le_refl _
    · -- n ≥ 2: both indices are in range and ordered
      have e1 : (((pySorted values).length : Int) / 10) =
          (((pySorted values).length / 10 : Nat) : Int) := by omega
      have e2 : ((9 * ((pySorted values).length : Int)) / 10 - 1) =
          ((9 * (pySorted values).length / 10 - 1 : Nat) : Int) := by omega
      unfold winsorLower winsorUpper
      rw [e1, e2, pyGet_nonneg_index, pyGet_nonneg_index]
      exact sorted_getD_mono (pySorted_sorted values) (by omega) (by omega)
  refine ⟨hmap, hle, ?_, by decide⟩
  intro x hx
  rw [hmap] at hx
  rcases List.mem_map.mp hx with ⟨v, _, rfl⟩
  constructor
  · exact le_min (le_max_right _ _) hle
  · exact min_le_right _ _

/-- Witness for C2 amended at `[1,2,3,4,100]`. -/
theorem claim_C2_amended_witness :
    winsorize [1, 2, 3, 4, 100] =
      [1, 2, 3, 4, (100 : Rat)].map
        (fun v => min (max v (winsorLower [1, 2, 3, 4, 100]))
          (winsorUpper [1, 2, 3, 4, 100])) ∧
    winsorLower [1, 2, 3, 4, 100] ≤ winsorUpper [1, 2, 3, 4, 100] := by
  have h := claim_C2_amended [1, 2, 3, 4, 100] (by decide)
  exact ⟨h.1, h.2.1⟩

/-! ## C6: the clearing price -/

/-- C6: the source's per-record clearing price agrees with the spec's
formula on every input — `ask = final_price if set else price`; a record
with no usable ask is discarded (`none`); with a bid present the clearing
price is `max(highest_bid, ask·0.8)`, else the ask.  The concrete instances
show the 80%-of-ask floor overriding a low bid (ask 100, bid 50 ⇒ 80), a
bidding war raising the estimate (ask 100, bid 95 ⇒ 95), `final_price`
taking precedence over `price` (60 over 100), and the no-ask discard. -/
theorem claim_C6_clearing_price :
    (∀ final_price price highest_bid : Option Rat,
      clearing_code final_price price highest_bid =
        clearing_spec final_price price highest_bid) ∧
    clearing_code none (some 100) (some 50) = some 80 ∧
    clearing_code none (some 100) (some 95) = some 95 ∧
    clearing_code (some 60) (some 100) none = some 60 ∧
    clearing_code none none (some 50) = none := by
  refine ⟨?_, ?_, ?_, by rfl, by rfl⟩
  · intro fp p hb
    cases fp <;> cases p <;> cases hb <;> rfl
  · show (some (max 50 ((100 : Rat) * (4 / 5))) : Option Rat) = some 80
    norm_num
  · show (some (max 95 ((100 : Rat) * (4 / 5))) : Option Rat) = some 95
    norm_num

/-! ## C5: only broken, non-commercial products are returned -/

/-- `is_broken_product` only reads `description` and `attributes`, so the
flag written into the product does not disturb the classification. -/
theorem is_broken_product_set_flag (q : Product) (b : Bool) :
    is_broken_product { q with is_broken := b } = is_broken_product q := rfl

theorem fetch_listings_go_mem (details : String → Details) (listings : List Item)
    (acc : List Product) (p : Product)
    (hp : p ∈ listings.foldl
      (fun products item =>
        if is_commercial item then products
        else
          let product := buildProduct details item
          if !product.is_broken then products
          else products ++ [product]) acc) :
    p ∈ acc ∨ ∃ item ∈ listings, is_commercial item = false ∧
      p = buildProduct details item ∧ p.is_broken = true := by
  induction listings generalizing acc with
  | nil => exact Or.inl hp
  | cons item rest ih =>
    simp only [List.foldl_cons] at hp
    by_cases hc : is_commercial item
    · rw [if_pos hc] at hp
      rcases ih _ hp with h | ⟨x, hx, hcx, hpx⟩
      · exact Or.inl h
      · exact Or.inr ⟨x, List.mem_cons_of_mem _ hx, hcx, hpx⟩
    · rw [if_neg hc] at hp
      by_cases hb : !(buildProduct details item).is_broken
      · rw [if_pos hb] at hp
        rcases ih _ hp with h | ⟨x, hx, hcx, hpx⟩
        · exact Or.inl h
        · exact Or.inr ⟨x, List.mem_cons_of_mem _ hx, hcx, hpx⟩
      · rw [if_neg hb] at hp
        rcases ih _ hp with h | ⟨x, hx, hcx, hpx⟩
        · rcases List.mem_append.mp h with h' | h'
          · exact Or.inl h'
          · rcases List.mem_singleton.mp h' with rfl
            refine Or.inr ⟨item, List.mem_cons_self _ _, Bool.eq_false_iff.mpr hc, rfl, ?_⟩
            simpa using hb
        · exact Or.inr ⟨x, List.mem_cons_of_mem _ hx, hcx, hpx⟩

theorem buildProduct_broken_flag (details : String → Details) (item : Item) :
    is_broken_product (buildProduct details item) = (buildProduct details item).is_broken :=
  rfl

theorem fetchAllGo_mem (pages : List (List Product)) (acc : List Product)
    (seen : List (Option String)) (p : Product) (hp : p ∈ fetchAllGo pages acc seen) :
    p ∈ acc ∨ ∃ pg ∈ pages, p ∈ pg := by
  induction pages generalizing acc seen with
  | nil => exact Or.inl hp
  | cons pg rest ih =>
    unfold fetchAllGo at hp
    by_cases he : (pg.filter (fun q => decide (q.id ∉ seen))).isEmpty
    · rw [if_pos he] at hp
      exact Or.inl hp
    · rw [if_neg he] at hp
      rcases ih _ _ hp with h | ⟨x, hx, hpx⟩
      · rcases List.mem_append.mp h with h' | h'
        · exact Or.inl h'
        · exact Or.inr ⟨pg, List.mem_cons_self _ _, (List.mem_filter.mp h').1⟩
      · exact Or.inr ⟨x, List.mem_cons_of_mem _ hx, hpx⟩

/-- C5: every product returned by `fetch_listings` satisfies the
broken-product predicate and originates from a raw listing that fails the
commercial-advertisement predicate (products not classified as broken are
excluded); the same holds of every product accumulated by
`fetch_all_listings` over pages of `fetch_listings` results. -/
theorem claim_C5_broken_non_commercial :
    (∀ (details : String → Details) (listings : List Item) (p : Product),
      p ∈ fetch_listings details listings →
      is_broken_product p = true ∧ p.is_broken = true ∧
        ∃ item ∈ listings, is_commercial item = false ∧ p = buildProduct details item) ∧
    (∀ (details : String → Details) (pagesItems : List (List Item)) (p : Product),
      p ∈ fetch_all_listings (pagesItems.map (fetch_listings details)) →
      is_broken_product p = true ∧
        ∃ items ∈ pagesItems, ∃ item ∈ items,
          is_commercial item = false ∧ p = buildProduct details item) := by
  have main : ∀ (details : String → Details) (listings : List Item) (p : Product),
      p ∈ fetch_listings details listings →
      is_broken_product p = true ∧ p.is_broken = true ∧
        ∃ item ∈ listings, is_commercial item = false ∧ p = buildProduct details item := by
    intro details listings p hp
    unfold fetch_listings at hp
    rcases fetch_listings_go_mem details listings [] p hp with h | ⟨item, hitem, hcom, hpb, hflag⟩
    · cases h
    · subst hpb
      exact ⟨(buildProduct_broken_flag details item).trans hflag, hflag,
        item, hitem, hcom, rfl⟩
  refine ⟨main, ?_⟩
  intro details pagesItems p hp
  unfold fetch_all_listings at hp
  rcases fetchAllGo_mem _ _ _ p hp with h | ⟨pg, hpg, hppg⟩
  · cases h
  · rcases List.mem_map.mp hpg with ⟨items, hitems, rfl⟩
    rcases main details items p hppg with ⟨hbroken, _, item, hitem, hcom, hpb⟩
    exact ⟨hbroken, items, hitems, item, hitem, hcom, hpb⟩

/-- Witness for C5 at a one-item page: a non-commercial listing whose
description mentions "defect" is returned and classified broken. -/
theorem claim_C5_witness :
    is_broken_product (buildProduct (fun _ => ⟨none, none⟩)
      ⟨some "m1", some "solis", none, none, false, some "defect, voor onderdelen",
        none, "/v/1"⟩) = true ∧
    ∃ item ∈ [(⟨some "m1", some "solis", none, none, false,
        some "defect, voor onderdelen", none, "/v/1"⟩ : Item)],
      is_commercial item = false ∧
      buildProduct (fun _ => ⟨none, none⟩)
          ⟨some "m1", some "solis", none, none, false, some "defect, voor onderdelen",
            none, "/v/1"⟩ = buildProduct (fun _ => ⟨none, none⟩) item := by
  have h := claim_C5_broken_non_commercial.1 (fun _ => ⟨none, none⟩)
    [⟨some "m1", some "solis", none, none, false, some "defect, voor onderdelen",
      none, "/v/1"⟩]
    (buildProduct (fun _ => ⟨none, none⟩)
      ⟨some "m1", some "solis", none, none, false, some "defect, voor onderdelen",
        none, "/v/1"⟩)
    (by decide)
  exact ⟨h.1, h.2.2⟩

/-! ## C9: pagination accumulation and termination -/

/-- C9 counterexample: `seen_ids` is only updated after a page is filtered,
so two occurrences of the same id within one page are both kept — the
accumulated list is not deduplicated by id and the first occurrence is not
the only one kept. -/
theorem claim_C9_counterexample :
    fetch_all_listings
        [[⟨some "A", some "x", none, "u", none, none, true⟩,
          ⟨some "A", some "y", none, "u", none, none, true⟩]] =
      [⟨some "A", some "x", none, "u", none, none, true⟩,
       ⟨some "A", some "y", none, "u", none, none, true⟩] ∧
    ¬ ((fetch_all_listings
        [[⟨some "A", some "x", none, "u", none, none, true⟩,
          ⟨some "A", some "y", none, "u", none, none, true⟩]]).map
        (fun p => p.id)).Nodup := by
  refine ⟨by decide, by decide⟩

theorem fetchAllGo_nodup (pages : List (List Product)) (acc : List Product)
    (seen : List (Option String))
    (hpages : ∀ pg ∈ pages, (pg.map (fun p => p.id)).Nodup)
    (hacc : (acc.map (fun p => p.id)).Nodup)
    (hseen : ∀ i ∈ acc.map (fun p => p.id), i ∈ seen) :
    ((fetchAllGo pages acc seen).map (fun p => p.id)).Nodup := by
  induction pages generalizing acc seen with
  | nil => exact hacc
  | cons pg rest ih =>
    unfold fetchAllGo
    by_cases he : (pg.filter (fun q => decide (q.id ∉ seen))).isEmpty
    · rw [if_pos he]; exact hacc
    · rw [if_neg he]
      have hsub : (pg.filter (fun q => decide (q.id ∉ seen))).Sublist pg :=
        List.filter_sublist pg
      have hnew : ((pg.filter (fun q => decide (q.id ∉ seen))).map
          (fun p => p.id)).Nodup :=
        (hpages pg (List.mem_cons_self _ _)).sublist (hsub.map _)
      have hdisj : (acc.map (fun p => p.id)).Disjoint
          ((pg.filter (fun q => decide (q.id ∉ seen))).map (fun p => p.id)) := by
        intro i hia hin
        rcases List.mem_map.mp hin with ⟨q, hq, rfl⟩
        have hni := (List.mem_filter.mp hq).2
        rw [decide_eq_true_eq] at hni
        exact hni (hseen _ hia)
      refine ih _ _ (fun pg' h => hpages pg' (List.mem_cons_of_mem _ h)) ?_ ?_
      · rw [List.map_append]
        exact hacc.append hnew hdisj
      · intro i hi
        rw [List.map_append] at hi
        rcases List.mem_append.mp hi with h' | h'
        · exact List.mem_append_left _ (hseen i h')
        · exact List.mem_append_right _ h'

theorem fetchAllGo_stop (p1 p2 : List Product) (rest : List (List Product))
    (h : ∀ q ∈ p2, q.id ∈ p1.map (fun p => p.id)) :
    fetch_all_listings (p1 :: p2 :: rest) = fetch_all_listings [p1] := by
  unfold fetch_all_listings
  unfold fetchAllGo
  have hfull : p1.filter (fun q => decide (q.id ∉ ([] : List (Option String)))) = p1 :=
    List.filter_eq_self.mpr (fun q _ => decide_eq_true (by simp))
  rw [hfull]
  by_cases hp1 : p1.isEmpty
  · rw [if_pos hp1, if_pos hp1]
  · rw [if_neg hp1, if_neg hp1]
    unfold fetchAllGo
    have hempty : p2.filter
        (fun q => decide (q.id ∉ ([] : List (Option String)) ++ p1.map (fun p => p.id)))
          = [] := by
      rw [List.filter_eq_nil_iff]
      intro q hq
      have hmem : q.id ∈ ([] : List (Option String)) ++ p1.map (fun p => p.id) := by
        simpa using h q hq
      simp only [decide_eq_true_eq]
      exact fun hc => hc hmem
    rw [hempty]
    rfl

/-- C9 amended: across pages the accumulation is deduplicated by id — a page
contributes only the products whose id was not seen on an earlier page, so
if each page is itself free of duplicate ids the accumulated list is too
(duplicate ids *within* one page are all kept, since `seen_ids` is updated
only after the page is filtered); and the loop stops exactly when a page
contributes no id unseen on earlier pages — in particular a page whose ids
were all seen on the first page ends the run. -/
theorem claim_C9_amended :
    (∀ pages : List (List Product),
      (∀ pg ∈ pages, (pg.map (fun p => p.id)).Nodup) →
      ((fetch_all_listings pages).map (fun p => p.id)).Nodup) ∧
    (∀ (p1 p2 : List Product) (rest : List (List Product)),
      (∀ q ∈ p2, q.id ∈ p1.map (fun p => p.id)) →
      fetch_all_listings (p1 :: p2 :: rest) = fetch_all_listings [p1]) := by
  constructor
  · intro pages hpages
    exact fetchAllGo_nodup pages [] [] hpages (by simp) (by simp)
  · exact fetchAllGo_stop

/-- Witness for C9 amended: two pages with a repeated id across pages —
the second page's copy is dropped and, its ids being all seen, it ends the
run. -/
theorem claim_C9_amended_witness :
    ((fetch_all_listings
        [[⟨some "A", some "x", none, "u", none, none, true⟩],
         [⟨some "A", some "y", none, "u", none, none, true⟩]]).map
      (fun p => p.id)).Nodup ∧
    fetch_all_listings
        [[⟨some "A", some "x", none, "u", none, none, true⟩],
         [⟨some "A", some "y", none, "u", none, none, true⟩]] =
      fetch_all_listings [[⟨some "A", some "x", none, "u", none, none, true⟩]] := by
  constructor
  · exact claim_C9_amended.1
      [[⟨some "A", some "x", none, "u", none, none, true⟩],
       [⟨some "A", some "y", none, "u", none, none, true⟩]] (by decide)
  · exact claim_C9_amended.2
      [⟨some "A", some "x", none, "u", none, none, true⟩]
      [⟨some "A", some "y", none, "u", none, none, true⟩] [] (by decide)

/-! ## C4: the matcher picks the first key achieving the maximal score -/

theorem fuzzRatio_den_pos (a b : List Char) : 0 < (fuzzRatio a b).den := by
  unfold fuzzRatio
  split
  · exact Nat.one_pos
  · next h => exact Nat.pos_of_ne_zero h

theorem fuzzPartial_den_pos (a b : List Char) : 0 < (fuzzPartial a b).den := by
  unfold fuzzPartial
  apply foldFracMax_den_pos
  · exact Nat.one_pos
  · intro s hs
    rcases List.mem_map.mp hs with ⟨w, _, rfl⟩
    exact fuzzRatio_den_pos _ w

theorem scoreList_den_pos (rules : List (String × List String)) (title : String) :
    ∀ p ∈ scoreList rules title, 0 < p.2.den := by
  intro p hp
  rcases List.mem_flatMap.mp hp with ⟨kp, _, hp2⟩
  rcases List.mem_map.mp hp2 with ⟨pat, _, rfl⟩
  exact fuzzPartial_den_pos _ _

theorem matchStep_snd (acc : Option String × Frac) (p : String × Frac) :
    (matchStep acc p).2 = fracMax acc.2 p.2 := by
  unfold matchStep fracMax
  split <;> rfl

theorem mstep_fold_snd (l : List (String × Frac)) (acc : Option String × Frac) :
    (l.foldl matchStep acc).2 = (l.map Prod.snd).foldl fracMax acc.2 := by
  induction l generalizing acc with
  | nil => rfl
  | cons p rest ih =>
    simp only [List.foldl_cons, List.map_cons]
    rw [ih, matchStep_snd]

theorem mstep_stable (l : List (String × Frac)) (acc : Option String × Frac)
    (h : ∀ p ∈ l, ¬ Frac.lt acc.2 p.2) : l.foldl matchStep acc = acc := by
  induction l with
  | nil => rfl
  | cons p rest ih =>
    simp only [List.foldl_cons]
    have hstep : matchStep acc p = acc := by
      unfold matchStep
      rw [if_neg (h p (List.mem_cons_self _ _))]
    rw [hstep]
    exact ih (fun x hx => h x (List.mem_cons_of_mem _ hx))

theorem mstep_argmax (l : List (String × Frac)) (bk : Option String) (bs : Frac)
    (hbs : 0 < bs.den) (hl : ∀ p ∈ l, 0 < p.2.den)
    (himp : Frac.lt bs ((l.map Prod.snd).foldl fracMax bs)) :
    ∃ q : String × Frac,
      l.find? (fun p =>
        decide (Frac.equiv p.2 ((l.map Prod.snd).foldl fracMax bs))) = some q ∧
      (l.foldl matchStep (bk, bs)).1 = some q.1 := by
  induction l generalizing bk bs with
  | nil => exact absurd himp (Frac.lt_irrefl bs)
  | cons p rest ih =>
    have hp : 0 < p.2.den := hl p (List.mem_cons_self _ _)
    have hrest : ∀ x ∈ rest, 0 < x.2.den := fun x hx => hl x (List.mem_cons_of_mem _ hx)
    have hrestd : ∀ x ∈ rest.map Prod.snd, 0 < x.den := by
      intro x hx
      rcases List.mem_map.mp hx with ⟨y, hy, rfl⟩
      exact hrest y hy
    simp only [List.map_cons, List.foldl_cons] at himp ⊢
    by_cases hc : Frac.lt bs p.2
    · have hm' : fracMax bs p.2 = p.2 := if_pos hc
      simp only [hm'] at himp ⊢
      have hstep : matchStep (bk, bs) p = (some p.1, p.2) := by
        unfold matchStep
        rw [if_pos hc]
      rcases foldFracMax_dichotomy (rest.map Prod.snd) p.2 hp hrestd with hM | hM
      · rw [hM]
        refine ⟨p, ?_, ?_⟩
        · exact List.find?_cons_of_pos _ (decide_eq_true (Frac.equiv_refl p.2))
        · rw [hstep]
          have hstable : rest.foldl matchStep (some p.1, p.2) = (some p.1, p.2) := by
            apply mstep_stable
            intro x hx
            have hge := foldFracMax_ge_mem (rest.map Prod.snd) p.2 hp hrestd x.2
              (List.mem_map.mpr ⟨x, hx, rfl⟩)
            rw [hM] at hge
            exact hge
          rw [hstable]
      · have hne : ¬ Frac.equiv p.2 ((rest.map Prod.snd).foldl fracMax p.2) :=
          Frac.not_equiv_of_lt hM
        rcases ih (some p.1) p.2 hp hrest hM with ⟨q, hfind, hfst⟩
        refine ⟨q, ?_, ?_⟩
        · rw [List.find?_cons_of_neg _ (by simpa using hne)]
          exact hfind
        · rw [hstep]
          exact hfst
    · have hm' : fracMax bs p.2 = bs := if_neg hc
      simp only [hm'] at himp ⊢
      have hne : ¬ Frac.equiv p.2 ((rest.map Prod.snd).foldl fracMax bs) :=
        Frac.not_equiv_of_lt (Frac.lt_of_le_of_lt hp hc himp)
      have hstep : matchStep (bk, bs) p = (bk, bs) := by
        unfold matchStep
        rw [if_neg hc]
      rcases ih bk bs hbs hrest himp with ⟨q, hfind, hfst⟩
      refine ⟨q, ?_, ?_⟩
      · rw [List.find?_cons_of_neg _ (by simpa using hne)]
        exact hfind
      · rw [hstep]
        exact hfst

theorem match_fold_flatten (rules : List (String × List String)) (t : List Char)
    (acc : Option String × Frac) :
    rules.foldl (fun acc kp => kp.2.foldl
      (fun acc2 pat => matchStep acc2 (kp.1, fuzzPartial (lowerStr pat) t)) acc) acc
    = (rules.flatMap (fun kp => kp.2.map
        (fun pat => (kp.1, fuzzPartial (lowerStr pat) t)))).foldl matchStep acc := by
  induction rules generalizing acc with
  | nil => rfl
  | cons kp rest ih =>
    simp only [List.foldl_cons, List.flatMap_cons, List.foldl_append]
    rw [← ih]
    congr 1
    rw [List.foldl_map]

set_option maxRecDepth 8000

/-- C4: the matcher lower-cases the title, scores every pattern of every key
with the partial similarity, and returns exactly what the spec's wording
demands — the first-declared key achieving the maximum score when that
maximum reaches the threshold 80, nothing otherwise (`match_spec`); in
particular the two concrete examples of the spec. -/
theorem claim_C4_matcher :
    (∀ (rules : List (String × List String)) (title : String),
      match_product_key_with rules title = match_spec rules title) ∧
    match_product_key "DeLonghi Magnifica S espresso machine" =
      some "delonghi_magnifica_s" ∧
    match_product_key "random toaster" = none := by
  refine ⟨?_, by decide, by decide⟩
  intro rules title
  simp only [match_product_key_with, match_spec]
  rw [match_fold_flatten]
  have hflat : (rules.flatMap (fun kp => kp.2.map
      (fun pat => (kp.1, fuzzPartial (lowerStr pat) (lowerStr title))))) =
      scoreList rules title := rfl
  rw [hflat]
  have hdenL : ∀ p ∈ scoreList rules title, 0 < p.2.den := scoreList_den_pos rules title
  have hdenS : ∀ s ∈ (scoreList rules title).map Prod.snd, 0 < s.den := by
    intro s hs
    rcases List.mem_map.mp hs with ⟨y, hy, rfl⟩
    exact hdenL y hy
  have hsnd : ((scoreList rules title).foldl matchStep
      ((none : Option String), (⟨0, 1⟩ : Frac))).2 =
      ((scoreList rules title).map Prod.snd).foldl fracMax ⟨0, 1⟩ :=
    mstep_fold_snd _ _
  have hmax : maxScore rules title =
      ((scoreList rules title).map Prod.snd).foldl fracMax ⟨0, 1⟩ := by
    unfold maxScore
    rw [List.foldl_map]
  by_cases hth : Frac.le THRESHOLD (maxScore rules title)
  · have hMden : 0 < (((scoreList rules title).map Prod.snd).foldl
        fracMax (⟨0, 1⟩ : Frac)).den :=
      foldFracMax_den_pos _ _ Nat.one_pos hdenS
    have himp : Frac.lt ⟨0, 1⟩
        (((scoreList rules title).map Prod.snd).foldl fracMax ⟨0, 1⟩) := by
      have hth' := hth
      rw [hmax] at hth'
      simp only [Frac.le, THRESHOLD] at hth'
      simp only [Frac.lt]
      omega
    rcases mstep_argmax (scoreList rules title) none ⟨0, 1⟩ Nat.one_pos hdenL himp
      with ⟨q, hfind, hfst⟩
    rw [if_pos (by rw [hsnd, ← hmax]; exact hth), if_pos hth]
    rw [hfst]
    rw [hmax]
    rw [hfind]
    rfl
  · rw [if_neg (by rw [hsnd, ← hmax]; exact hth), if_neg hth]

/-! ## C7: error handling of `analyze` -/

/-- An optional timestamp field that `fromisoformat` accepts (or that is
absent). -/
def parsesOrAbsent : Option String → Bool
  | none => true
  | some s => (parseIsoDate s).isSome

instance exceptDecEq {e a : Type} [DecidableEq e] [DecidableEq a] :
    DecidableEq (Except e a) := fun x y =>
  match x, y with
  | Except.error u, Except.error v =>
    if h : u = v then isTrue (by rw [h])
    else isFalse (fun hc => h (Except.error.injEq u v ▸ congrArg id hc |> fun hh => by
      cases hc; rfl))
  | Except.ok u, Except.ok v =>
    if h : u = v then isTrue (by rw [h])
    else isFalse (fun hc => h (by cases hc; rfl))
  | Except.error _, Except.ok _ => isFalse (fun hc => Except.noConfusion hc)
  | Except.ok _, Except.error _ => isFalse (fun hc => Except.noConfusion hc)

/-- C7 counterexample: a row whose title matches and whose ask is usable but
whose `start_date` is a malformed timestamp makes
`datetime.fromisoformat` raise, and the `ValueError` propagates out of
`analyze` — the run aborts instead of degrading. -/
theorem claim_C7_counterexample :
    analyze "2000-01-01"
      [⟨some "delonghi magnifica s", some 100, none, some "not-a-date",
        some "2099-01-01T00:00:00", none⟩] =
      Except.error "ValueError: fromisoformat(start_date)" := by
  decide

theorem analyzeRow_ok (r : ListingRow)
    (h : match_product_key (r.title.getD "") ≠ none →
      askOf r.final_price r.price ≠ none →
      parsesOrAbsent r.start_date = true ∧ parsesOrAbsent r.last_seen = true)
    (acc : List (String × (List Rat × List Rat))) :
    ∃ acc2, analyzeRow acc r = Except.ok acc2 := by
  unfold analyzeRow
  cases hk : match_product_key (r.title.getD "") with
  | none => exact ⟨acc, rfl⟩
  | some key =>
    cases ha : askOf r.final_price r.price with
    | none => exact ⟨acc, rfl⟩
    | some ask =>
      obtain ⟨h1, h2⟩ := h (by simp [hk]) (by simp [ha])
      have hs : ∃ sd, parseOptTs "start_date" r.start_date = Except.ok sd := by
        cases hsd : r.start_date with
        | none => exact ⟨none, rfl⟩
        | some s =>
          simp only [parsesOrAbsent, hsd] at h1
          obtain ⟨t, ht⟩ := Option.isSome_iff_exists.mp h1
          refine ⟨some t, ?_⟩
          simp only [parseOptTs, ht]
      have hl : ∃ ld, parseOptTs "last_seen" r.last_seen = Except.ok ld := by
        cases hld : r.last_seen with
        | none => exact ⟨none, rfl⟩
        | some s =>
          simp only [parsesOrAbsent, hld] at h2
          obtain ⟨t, ht⟩ := Option.isSome_iff_exists.mp h2
          refine ⟨some t, ?_⟩
          simp only [parseOptTs, ht]
      obtain ⟨sd, hsd⟩ := hs
      obtain ⟨ld, hld⟩ := hl
      rw [hsd, hld]
      exact ⟨_, rfl⟩

theorem analyzeLoop_ok (rows : List ListingRow)
    (h : ∀ r ∈ rows,
      match_product_key (r.title.getD "") ≠ none →
      askOf r.final_price r.price ≠ none →
      parsesOrAbsent r.start_date = true ∧ parsesOrAbsent r.last_seen = true)
    (acc : List (String × (List Rat × List Rat))) :
    ∃ res, analyzeLoop rows acc = Except.ok res := by
  induction rows generalizing acc with
  | nil => exact ⟨acc, rfl⟩
  | cons r rest ih =>
    obtain ⟨acc2, hacc2⟩ := analyzeRow_ok r (h r (List.mem_cons_self _ _)) acc
    obtain ⟨res, hres⟩ := ih (fun x hx => h x (List.mem_cons_of_mem _ hx)) acc2
    refine ⟨res, ?_⟩
    simp only [analyzeLoop, hacc2]
    exact hres

/-- C7 amended: `analyze` raises no exception provided every row whose title
matches a product key and whose ask is usable carries only parseable (or
absent) `start_date`/`last_seen` strings; a row with no usable ask is
excluded from valuation with the accumulator unchanged, never aborting —
but a malformed timestamp on a row that reaches the date parse aborts the
run (see the counterexample). -/
theorem claim_C7_no_exception (cutoff : String) (rows : List ListingRow)
    (h : ∀ r ∈ rows,
      match_product_key (r.title.getD "") ≠ none →
      askOf r.final_price r.price ≠ none →
      parsesOrAbsent r.start_date = true ∧ parsesOrAbsent r.last_seen = true) :
    exceptOk (analyze cutoff rows) = true ∧
    (∀ r : ListingRow, askOf r.final_price r.price = none →
      ∀ acc, analyzeRow acc r = Except.ok acc) := by
  constructor
  · simp only [analyze]
    obtain ⟨res, hres⟩ := analyzeLoop_ok
      (rows.filter (fun r =>
        match r.last_seen with
        | some s => strLe cutoff s
        | none => false))
      (fun r hr => h r (List.mem_filter.mp hr).1) []
    rw [hres]
    rfl
  · intro r hask acc
    unfold analyzeRow
    cases hk : match_product_key (r.title.getD "") with
    | none => rfl
    | some key => rw [hask]

/-- Witness for C7 amended: a well-formed row plus a row with no usable ask
(which also carries a malformed `start_date` — it is excluded before the
date parse is reached). -/
theorem claim_C7_witness :
    exceptOk (analyze "2000-01-01"
      [⟨some "delonghi magnifica s", some 100, none, none, some "2099-01-01", none⟩,
       ⟨some "delonghi magnifica s", none, none, some "not-a-date",
         some "2099-01-01", none⟩]) = true ∧
    analyzeRow []
      ⟨some "delonghi magnifica s", none, none, some "not-a-date",
        some "2099-01-01", none⟩ = Except.ok [] := by
  have h := claim_C7_no_exception "2000-01-01"
    [⟨some "delonghi magnifica s", some 100, none, none, some "2099-01-01", none⟩,
     ⟨some "delonghi magnifica s", none, none, some "not-a-date",
       some "2099-01-01", none⟩] (by decide)
  exact ⟨h.1, h.2 _ (by decide) []⟩

end Flip
